import Mathlib

/-!
Verification of a max-heap library (maxheap.py) and its lazy k-way merge.

The heap primitives (`heappush`, `heappop`, `heapreplace`, `heappushpop`,
`heapify`) and the two internal repositioning routines (`_siftup`,
`_siftdown`) are modelled as pure functions over `List α`, parameterised by
a Bool-valued strict comparison `lt` standing for the Python `<` operator
(the Python `>` operator `a > b` is modelled as `lt b a`).  The Python
`while` loops are modelled by structural recursion over an explicit
iteration budget; each budget used at a call site (`heap.length` for
sift-down, `pos` for sift-up) dominates the number of iterations the
source loop can perform, which the lemmas below make precise.

Operations that can raise `IndexError` in Python (`heappop` and
`heapreplace` on an empty sequence) return `Option`, with `none` standing
for the propagated indexing failure.  In addition, `siftdownGoChk` /
`siftupGoChk` are bounds-checked variants in which every single element
read and write is guarded exactly as Python guards it at runtime: they
return `none` as soon as any index is out of range, and are proved to
agree with the plain versions, which establishes in-bounds safety of the
sift routines.
-/

namespace Maxheap

variable {α : Type} {κ : Type}

/-! ### Heap primitives, translated from maxheap.py -/

/-- Child selection of `_siftdown`: `child_pos = 2*pos + 1`,
`right_pos = child_pos + 1`, and
`if right_pos < len(heap) and heap[child_pos] < heap[right_pos]:
child_pos = right_pos`. -/
def pickChild (lt : α → α → Bool) [Inhabited α] (heap : List α) (pos : Nat) : Nat :=
  if 2 * pos + 2 < heap.length ∧
      lt (heap.getI (2 * pos + 1)) (heap.getI (2 * pos + 2)) = true then
    2 * pos + 2
  else 2 * pos + 1

/-- Inner loop of `_siftdown` (move toward the leaves).  `cur` is the
Python local `cur_item`, `pos` the current hole.  The source loop
`while child_pos < len(heap)` is modelled with an iteration budget
(last argument); when the budget is exhausted the held item is placed,
which coincides with the source behaviour whenever the budget dominates
the remaining iterations. -/
def siftdownGo (lt : α → α → Bool) [Inhabited α] (cur : α) :
    List α → Nat → Nat → List α
  | heap, pos, 0 => heap.set pos cur
  | heap, pos, fuel + 1 =>
    if 2 * pos + 1 < heap.length then
      if lt cur (heap.getI (pickChild lt heap pos)) = true then
        siftdownGo lt cur (heap.set pos (heap.getI (pickChild lt heap pos)))
          (pickChild lt heap pos) fuel
      else heap.set pos cur
    else heap.set pos cur

/-- Python `_siftdown(heap, pos)`: go down the tree until `heap[pos]` has no
larger child.  The loop budget `heap.length` dominates the iteration count
(positions strictly increase and stay below the length). -/
def siftdown (lt : α → α → Bool) [Inhabited α] (heap : List α) (pos : Nat) : List α :=
  siftdownGo lt (heap.getI pos) heap pos heap.length

/-- Inner loop of `_siftup` (move toward the root): follow the path to the
root, moving parents down until a place where `cur` fits. -/
def siftupGo (lt : α → α → Bool) [Inhabited α] (cur : α) :
    List α → Nat → Nat → List α
  | heap, pos, 0 => heap.set pos cur
  | heap, pos, fuel + 1 =>
    if 0 < pos then
      -- parent_pos = (pos - 1) >> 1; if cur_item > heap[parent_pos] then move parent down
      if lt (heap.getI ((pos - 1) / 2)) cur = true then
        siftupGo lt cur (heap.set pos (heap.getI ((pos - 1) / 2))) ((pos - 1) / 2) fuel
      else heap.set pos cur
    else heap.set pos cur

/-- Python `_siftup(heap, pos)`.  The loop budget `pos` dominates the
iteration count (the position strictly decreases). -/
def siftup (lt : α → α → Bool) [Inhabited α] (heap : List α) (pos : Nat) : List α :=
  siftupGo lt (heap.getI pos) heap pos pos

/-- Python `heappush(heap, item)`: append, then sift up from the last index. -/
def heappush (lt : α → α → Bool) [Inhabited α] (heap : List α) (item : α) : List α :=
  siftup lt (heap ++ [item]) ((heap ++ [item]).length - 1)

/-- Python `heappop(heap)`.  `heap.pop()` on an empty list raises
`IndexError`, modelled by `none`; otherwise the result is the pair of the
returned item and the remaining list. -/
def heappop (lt : α → α → Bool) [Inhabited α] (heap : List α) : Option (α × List α) :=
  match heap.getLast? with
  | none => none
  | some lastelt =>
    let rest := heap.dropLast
    if rest.isEmpty then some (lastelt, [])
    else some (rest.getI 0, siftdown lt (rest.set 0 lastelt) 0)

/-- List part of `heappop` (the heap left behind), used by `merge` where the
pop is known to succeed. -/
def heappopRest (lt : α → α → Bool) [Inhabited α] (heap : List α) : List α :=
  match heap.getLast? with
  | none => []
  | some lastelt =>
    let rest := heap.dropLast
    if rest.isEmpty then []
    else siftdown lt (rest.set 0 lastelt) 0

/-- Python `heapreplace(heap, item)`: `heap[0]` on an empty list raises
`IndexError` (`none`); otherwise return the old root and the heap with
`item` substituted at the root and sifted down. -/
def heapreplace (lt : α → α → Bool) [Inhabited α] (heap : List α) (item : α) :
    Option (α × List α) :=
  match heap with
  | [] => none
  | _ :: _ => some (heap.getI 0, siftdown lt (heap.set 0 item) 0)

/-- Python `heappushpop(heap, item)`: if the heap is non-empty and
`heap[0] > item`, swap `item` with the root and sift down, returning the
old root; otherwise return `item` and leave the heap untouched. -/
def heappushpop (lt : α → α → Bool) [Inhabited α] (heap : List α) (item : α) :
    α × List α :=
  if heap.isEmpty = false ∧ lt item (heap.getI 0) = true then
    (heap.getI 0, siftdown lt (heap.set 0 item) 0)
  else (item, heap)

/-- Loop of `heapify`: `for i in reversed(range(n // 2)): _siftdown(array, i)`.
`heapifyGo lt heap k` performs the sift-downs at indices `k-1, k-2, ..., 0`. -/
def heapifyGo (lt : α → α → Bool) [Inhabited α] : List α → Nat → List α
  | heap, 0 => heap
  | heap, i + 1 => heapifyGo lt (siftdown lt heap i) i

/-- Python `heapify(array)`: transform a list into a max-heap bottom-up. -/
def heapify (lt : α → α → Bool) [Inhabited α] (heap : List α) : List α :=
  heapifyGo lt heap (heap.length / 2)

/-! ### Bounds-checked variants of the sift routines

Every individual element read and element write of the source is performed
through `readIdx` / `writeIdx`, which fail (like Python indexing) when the
index is out of range.  Control-flow comparisons of indices against
`len(heap)` are kept as in the source. -/

/-- Read `l[i]`, failing exactly when `i` is out of range. -/
def readIdx (l : List α) (i : Nat) : Option α := l[i]?

/-- Write `l[i] = x`, failing exactly when `i` is out of range. -/
def writeIdx (l : List α) (i : Nat) (x : α) : Option (List α) :=
  if i < l.length then some (l.set i x) else none

/-- Bounds-checked version of `siftdownGo`. -/
def siftdownGoChk (lt : α → α → Bool) (cur : α) :
    List α → Nat → Nat → Option (List α)
  | heap, pos, 0 => writeIdx heap pos cur
  | heap, pos, fuel + 1 =>
    if 2 * pos + 1 < heap.length then
      match (if 2 * pos + 2 < heap.length then
          match readIdx heap (2 * pos + 1), readIdx heap (2 * pos + 2) with
          | some a, some b =>
            if lt a b = true then some (2 * pos + 2) else some (2 * pos + 1)
          | _, _ => none
        else some (2 * pos + 1)) with
      | none => none
      | some cp =>
        match readIdx heap cp with
        | none => none
        | some cv =>
          if lt cur cv = true then
            match writeIdx heap pos cv with
            | none => none
            | some heap2 => siftdownGoChk lt cur heap2 cp fuel
          else writeIdx heap pos cur
    else writeIdx heap pos cur

/-- Bounds-checked `_siftdown`, including the initial `cur_item = heap[pos]` read. -/
def siftdownChk (lt : α → α → Bool) (heap : List α) (pos : Nat) : Option (List α) :=
  match readIdx heap pos with
  | none => none
  | some cur => siftdownGoChk lt cur heap pos heap.length

/-- Bounds-checked version of `siftupGo`. -/
def siftupGoChk (lt : α → α → Bool) (cur : α) :
    List α → Nat → Nat → Option (List α)
  | heap, pos, 0 => writeIdx heap pos cur
  | heap, pos, fuel + 1 =>
    if 0 < pos then
      match readIdx heap ((pos - 1) / 2) with
      | none => none
      | some pv =>
        if lt pv cur = true then
          match writeIdx heap pos pv with
          | none => none
          | some heap2 => siftupGoChk lt cur heap2 ((pos - 1) / 2) fuel
        else writeIdx heap pos cur
    else writeIdx heap pos cur

/-- Bounds-checked `_siftup`, including the initial `cur_item = heap[pos]` read. -/
def siftupChk (lt : α → α → Bool) (heap : List α) (pos : Nat) : Option (List α) :=
  match readIdx heap pos with
  | none => none
  | some cur => siftupGoChk lt cur heap pos pos

/-- Bounds-checked `heappush`: append, then bounds-checked sift-up from the
new last index. -/
def heappushChk (lt : α → α → Bool) (heap : List α) (item : α) : Option (List α) :=
  siftupChk lt (heap ++ [item]) ((heap ++ [item]).length - 1)

/-! ### The heap ordering predicate and comparison properties -/

/-- Edge-wise max-heap condition restricted to edges whose parent index is
at least `s`: for every child index `c` in range, if its parent
`(c-1)/2` is at least `s` then the parent is not smaller than the child.
`HeapFrom lt l 0` is the full max-heap invariant. -/
def HeapFrom (lt : α → α → Bool) [Inhabited α] (l : List α) (s : Nat) : Prop :=
  ∀ c, c < l.length → 0 < c → s ≤ (c - 1) / 2 →
    lt (l.getI ((c - 1) / 2)) (l.getI c) = false

/-- The max-heap invariant: no parent is smaller than either child. -/
def IsHeap (lt : α → α → Bool) [Inhabited α] (l : List α) : Prop :=
  HeapFrom lt l 0

instance (lt : α → α → Bool) [Inhabited α] (l : List α) (s : Nat) :
    Decidable (HeapFrom lt l s) :=
  decidable_of_iff
    (∀ c (_ : c < l.length), 0 < c → s ≤ (c - 1) / 2 →
      lt (l.getI ((c - 1) / 2)) (l.getI c) = false)
    Iff.rfl

instance (lt : α → α → Bool) [Inhabited α] (l : List α) :
    Decidable (IsHeap lt l) :=
  inferInstanceAs (Decidable (HeapFrom lt l 0))

/-- Properties of a strict weak order, packaged for a Bool-valued
comparison: irreflexivity, transitivity, and transitivity of the
complement.  They hold for the comparison of any linearly ordered type
and for the lexicographic record comparisons used by `merge`. -/
structure IsSWO (lt : α → α → Bool) : Prop where
  irrefl : ∀ a, lt a a = false
  lt_trans : ∀ a b c, lt a b = true → lt b c = true → lt a c = true
  not_lt_trans : ∀ a b c, lt a b = false → lt b c = false → lt a c = false

/-- The comparison of a linear order, as used by the heap operations on
ordinary values. -/
def ltb [LinearOrder α] : α → α → Bool := fun a b => decide (a < b)

theorem ltb_isSWO [LinearOrder α] : IsSWO (ltb (α := α)) := by
  refine ⟨fun a => ?_, fun a b c h1 h2 => ?_, fun a b c h1 h2 => ?_⟩
  · simp [ltb]
  · simp only [ltb, decide_eq_true_eq] at *
    exact lt_trans h1 h2
  · simp only [ltb, decide_eq_false_iff_not, not_lt] at *
    exact le_trans h2 h1

theorem IsSWO.asymm {lt : α → α → Bool} (h : IsSWO lt) {a b : α}
    (hab : lt a b = true) : lt b a = false := by
  cases hba : lt b a with
  | false => rfl
  | true => have := h.lt_trans a b a hab hba; rw [h.irrefl a] at this; exact this.symm

/-! ### merge, translated from maxheap.py

In the source the heap records are mutable lists `[value, order, next]`
(without a key function) or `[key(value), order, value, next]` (with a key
function), with `next` the bound `__next__` method of the iterator for one
input.  Python compares these records lexicographically; since the order
indices of distinct records are distinct, the comparison is decided by the
first two components and never reaches the later ones, which is how the
record comparisons below are defined.  Input iterables are modelled as the
lists of their remaining elements. -/

/-- Merge source record for `merge` without a key function: the current
head, the source order index, and the remaining elements of that source. -/
structure MRec (α : Type) where
  value : α
  order : Nat
  rest : List α
deriving DecidableEq

/-- Lexicographic comparison of `[value, order, next]` records (decided by
`(value, order)`; distinct records never tie beyond `order`). -/
def recLt [LinearOrder α] (a b : MRec α) : Bool :=
  if a.value < b.value then true
  else if b.value < a.value then false
  else decide (a.order < b.order)

instance [Inhabited α] : Inhabited (MRec α) := ⟨⟨default, 0, []⟩⟩

/-- Build phase of `merge` without a key: for each input in order, pull its
first element into a record (inputs that are already empty contribute
nothing), re-running `heapify` after every iteration as the source does. -/
def mergeBuild [LinearOrder α] [Inhabited α] (h : List (MRec α)) :
    List (List α) → Nat → List (MRec α)
  | [], _ => h
  | it :: more, order =>
    mergeBuild
      (heapify recLt (match it with
        | [] => h
        | v :: vs => h ++ [⟨v, order, vs⟩]))
      more (order + 1)

/-- Total number of elements still held by the records of `h` (each record
holds its current head plus its remaining elements).  Every iteration of
the emitting loop of `merge` consumes exactly one element, so this is an
iteration budget for it. -/
def msum (h : List (MRec α)) : Nat := (h.map fun r => r.rest.length + 1).sum

/-- Emitting loop of `merge` without a key.  While more than one record
remains: yield the root record value; if its source has a next element,
update the root record in place and `heapreplace`, else `heappop` the
exhausted record.  With one record left, yield its head and then drain its
source directly. -/
def mergeGo [LinearOrder α] [Inhabited α] : List (MRec α) → Nat → List α
  | _, 0 => []
  | h, fuel + 1 =>
    if 1 < h.length then
      match h with
      | [] => []
      | s :: t =>
        s.value ::
          (match s.rest with
           | v :: vs => mergeGo (siftdown recLt (⟨v, s.order, vs⟩ :: t) 0) fuel
           | [] => mergeGo (heappopRest recLt (s :: t)) fuel)
    else
      match h with
      | s :: _ => s.value :: s.rest
      | [] => []

/-- Python `merge(*iterables)` (no key function), as the list of all
elements the generator yields. -/
def merge [LinearOrder α] [Inhabited α] (its : List (List α)) : List α :=
  mergeGo (mergeBuild [] its 0) (msum (mergeBuild [] its 0))

/-- Merge source record for `merge` with a key function:
`[key(value), order, value, next]`. -/
structure KRec (κ : Type) (α : Type) where
  keyval : κ
  order : Nat
  value : α
  rest : List α
deriving DecidableEq

/-- Lexicographic comparison of `[key(value), order, value, next]` records
(decided by `(keyval, order)`; distinct records never tie beyond `order`). -/
def recLtK [LinearOrder κ] (a b : KRec κ α) : Bool :=
  if a.keyval < b.keyval then true
  else if b.keyval < a.keyval then false
  else decide (a.order < b.order)

instance [Inhabited κ] [Inhabited α] : Inhabited (KRec κ α) :=
  ⟨⟨default, 0, default, []⟩⟩

/-- Build phase of `merge` with a key function (no `heapify` inside this
loop; the source heapifies once afterwards). -/
def mergeBuildK (key : α → κ) (h : List (KRec κ α)) :
    List (List α) → Nat → List (KRec κ α)
  | [], _ => h
  | it :: more, order =>
    mergeBuildK key
      (match it with
        | [] => h
        | v :: vs => h ++ [⟨key v, order, v, vs⟩])
      more (order + 1)

/-- Iteration budget for the keyed emitting loop. -/
def msumK (h : List (KRec κ α)) : Nat := (h.map fun r => r.rest.length + 1).sum

/-- Emitting loop of `merge` with a key function. -/
def mergeGoK [LinearOrder κ] [Inhabited κ] [Inhabited α] (key : α → κ) :
    List (KRec κ α) → Nat → List α
  | _, 0 => []
  | h, fuel + 1 =>
    if 1 < h.length then
      match h with
      | [] => []
      | s :: t =>
        s.value ::
          (match s.rest with
           | v :: vs => mergeGoK key (siftdown recLtK (⟨key v, s.order, v, vs⟩ :: t) 0) fuel
           | [] => mergeGoK key (heappopRest recLtK (s :: t)) fuel)
    else
      match h with
      | s :: _ => s.value :: s.rest
      | [] => []

/-- Python `merge(*iterables, key=key)`, as the list of all elements the
generator yields. -/
def mergeK [LinearOrder κ] [Inhabited κ] [Inhabited α] (key : α → κ)
    (its : List (List α)) : List α :=
  mergeGoK key (heapify recLtK (mergeBuildK key [] its 0))
    (msumK (heapify recLtK (mergeBuildK key [] its 0)))

/-! ### List helper lemmas -/

theorem getI_set_self [Inhabited α] {l : List α} {i : Nat} (h : i < l.length) (a : α) :
    (l.set i a).getI i = a := by
  have h2 : i < (l.set i a).length := by simpa using h
  rw [List.getI_eq_getElem _ h2, List.getElem_set_self]

theorem getI_set_ne [Inhabited α] {l : List α} {i j : Nat} (hij : i ≠ j) (a : α) :
    (l.set i a).getI j = l.getI j := by
  by_cases hj : j < l.length
  · have h2 : j < (l.set i a).length := by simpa using hj
    rw [List.getI_eq_getElem _ h2, List.getI_eq_getElem _ hj, List.getElem_set_ne hij]
  · rw [List.getI_eq_default, List.getI_eq_default] <;> simp at hj ⊢ <;> omega

theorem set_getI_self [Inhabited α] :
    ∀ (l : List α) (i : Nat), i < l.length → l.set i (l.getI i) = l
  | _ :: _, 0, _ => rfl
  | a :: t, i + 1, h => by
    simp only [List.set_cons_succ, List.getI_cons_succ]
    rw [set_getI_self t i (by simpa using h)]

theorem mem_set {l : List α} {i : Nat} {a b : α} (h : b ∈ l.set i a) :
    b = a ∨ b ∈ l := by
  rw [List.set_eq_take_append_cons_drop] at h
  by_cases hi : i < l.length
  · rw [if_pos hi] at h
    rcases List.mem_append.1 h with h | h
    · exact Or.inr (List.mem_of_mem_take h)
    · rcases List.mem_cons.1 h with h | h
      · exact Or.inl h
      · exact Or.inr (List.mem_of_mem_drop h)
  · rw [if_neg hi] at h
    exact Or.inr h

/-- Exchanging a cons-ed element with the element written at position `k`
is a permutation. -/
theorem set_exchange_perm :
    ∀ {B : List α} {k : Nat}, k < B.length → ∀ (c x : α),
      List.Perm (c :: B.set k x) (x :: B.set k c)
  | [], k, hk, _, _ => absurd hk (by simp)
  | _ :: _, 0, _, c, x => List.Perm.swap _ _ _
  | b :: t, k + 1, hk, c, x => by
    simp only [List.set_cons_succ]
    exact ((List.Perm.swap b c _).trans
      (List.Perm.cons b (set_exchange_perm (by simpa using hk) c x))).trans
      (List.Perm.swap x b _)

/-- Writing `l[j]` into position `i` and then overwriting position `j` is,
up to permutation, just writing into position `i`. -/
theorem set_transfer_perm [Inhabited α] :
    ∀ {l : List α} {i j : Nat}, i ≠ j → i < l.length → j < l.length → ∀ (c : α),
      List.Perm ((l.set i (l.getI j)).set j c) (l.set i c)
  | [], _, _, _, hi, _, _ => absurd hi (by simp)
  | _ :: _, 0, 0, hij, _, _, _ => absurd rfl hij
  | a :: t, 0, j + 1, _, _, hj, c => by
    simp only [List.getI_cons_succ, List.set_cons_zero, List.set_cons_succ]
    have h2 : t.set j (t.getI j) = t := set_getI_self t j (by simpa using hj)
    have h1 := (set_exchange_perm (by simpa using hj : j < t.length) c (t.getI j)).symm
    rw [h2] at h1
    exact h1
  | a :: t, i + 1, 0, _, hi, _, c => by
    simp only [List.getI_cons_zero, List.set_cons_succ, List.set_cons_zero]
    exact set_exchange_perm (by simpa using hi) c a
  | a :: t, i + 1, j + 1, hij, hi, hj, c => by
    simp only [List.getI_cons_succ, List.set_cons_succ]
    exact List.Perm.cons a
      (set_transfer_perm (by omega) (by simpa using hi) (by simpa using hj) c)

theorem getI_dropLast [Inhabited α] {l : List α} {i : Nat}
    (h : i < l.dropLast.length) : l.dropLast.getI i = l.getI i := by
  rw [List.getI_eq_getElem _ h, List.getElem_dropLast,
    List.getI_eq_getElem _ (by simp at h; omega)]

/-! ### Basic facts about the heap predicate -/

theorem HeapFrom.mono {lt : α → α → Bool} [Inhabited α] {l : List α} {s t : Nat}
    (hst : s ≤ t) (h : HeapFrom lt l s) : HeapFrom lt l t :=
  fun c hc h0 hs => h c hc h0 (le_trans hst hs)

theorem heapFrom_of_no_children {lt : α → α → Bool} [Inhabited α] {l : List α} {s : Nat}
    (h : l.length ≤ 2 * s + 1) : HeapFrom lt l s := by
  intro c hc h0 hs
  omega

/-- Setting the root does not disturb the edges whose parent is not the root. -/
theorem heapFrom_one_set_zero {lt : α → α → Bool} [Inhabited α] {l : List α}
    (h : HeapFrom lt l 1) (x : α) : HeapFrom lt (l.set 0 x) 1 := by
  intro c hc h0 hs
  rw [List.length_set] at hc
  have hcge : 3 ≤ c := by omega
  rw [getI_set_ne (by omega), getI_set_ne (by omega)]
  exact h c hc h0 hs

/-! ### Sift-down: length, permutation, heap restoration -/

theorem pickChild_bounds (lt : α → α → Bool) [Inhabited α] (heap : List α) (pos : Nat) :
    pickChild lt heap pos = 2 * pos + 1 ∨ pickChild lt heap pos = 2 * pos + 2 := by
  unfold pickChild; split
  · exact Or.inr rfl
  · exact Or.inl rfl

theorem pickChild_lt_length (lt : α → α → Bool) [Inhabited α] {heap : List α} {pos : Nat}
    (h : 2 * pos + 1 < heap.length) : pickChild lt heap pos < heap.length := by
  unfold pickChild; split <;> omega

/-- The selected child is not smaller than either child. -/
theorem pickChild_spec {lt : α → α → Bool} [Inhabited α] (hswo : IsSWO lt)
    {heap : List α} {pos : Nat} :
    ∀ c, c < heap.length → (c = 2 * pos + 1 ∨ c = 2 * pos + 2) →
      lt (heap.getI (pickChild lt heap pos)) (heap.getI c) = false := by
  intro c hc hcc
  unfold pickChild
  split
  · rename_i hcond
    rcases hcc with rfl | rfl
    · exact hswo.asymm hcond.2
    · exact hswo.irrefl _
  · rename_i hcond
    rcases hcc with rfl | rfl
    · exact hswo.irrefl _
    · cases hx : lt (heap.getI (2 * pos + 1)) (heap.getI (2 * pos + 2)) with
      | false => rfl
      | true => exact absurd ⟨hc, hx⟩ hcond

theorem siftdownGo_length (lt : α → α → Bool) [Inhabited α] (cur : α) :
    ∀ (heap : List α) (pos fuel : Nat),
      (siftdownGo lt cur heap pos fuel).length = heap.length
  | heap, pos, 0 => by simp [siftdownGo]
  | heap, pos, fuel + 1 => by
    rw [siftdownGo]
    split
    · split
      · rw [siftdownGo_length lt cur _ _ fuel]; simp
      · simp
    · simp

theorem siftdownGo_perm (lt : α → α → Bool) [Inhabited α] (cur : α) :
    ∀ (heap : List α) (pos fuel : Nat), pos < heap.length →
      List.Perm (siftdownGo lt cur heap pos fuel) (heap.set pos cur)
  | _, _, 0, _ => List.Perm.refl _
  | heap, pos, fuel + 1, hpos => by
    rw [siftdownGo]
    split
    · rename_i hguard
      split
      · have hcp := pickChild_lt_length lt hguard
        have hb := pickChild_bounds lt heap pos
        have h1 := siftdownGo_perm lt cur
          (heap.set pos (heap.getI (pickChild lt heap pos)))
          (pickChild lt heap pos) fuel (by simpa using hcp)
        exact h1.trans (set_transfer_perm (by omega) hpos hcp cur)
      · exact List.Perm.refl _
    · exact List.Perm.refl _

/-- Main invariant argument for `_siftdown`.  If all edges with parent at
least `s` other than those at the hole `pos` are ordered, the held item
and the children of the hole both fit below the parent of the hole, then
after the sift-down all edges with parent at least `s` are ordered. -/
theorem siftdownGo_heapFrom {lt : α → α → Bool} [Inhabited α] (hswo : IsSWO lt) :
    ∀ (fuel : Nat) (heap : List α) (cur : α) (pos s : Nat),
      heap.length ≤ fuel + pos →
      pos < heap.length →
      s ≤ pos →
      (∀ c, c < heap.length → 0 < c → s ≤ (c - 1) / 2 → (c - 1) / 2 ≠ pos →
        lt (heap.getI ((c - 1) / 2)) (heap.getI c) = false) →
      (s < pos → lt (heap.getI ((pos - 1) / 2)) cur = false) →
      (s < pos → ∀ c, c < heap.length → (c = 2 * pos + 1 ∨ c = 2 * pos + 2) →
        lt (heap.getI ((pos - 1) / 2)) (heap.getI c) = false) →
      HeapFrom lt (siftdownGo lt cur heap pos fuel) s
  | 0, heap, cur, pos, s, hfuel, hpos, _, _, _, _ => by omega
  | fuel + 1, heap, cur, pos, s, hfuel, hpos, hsp, hedges, hupcur, hupkids => by
    rw [siftdownGo]
    split
    · rename_i hguard
      split
      · rename_i hlt
        -- the hole moves down to the selected child
        have hcp := pickChild_lt_length lt hguard
        have hb := pickChild_bounds lt heap pos
        apply siftdownGo_heapFrom hswo fuel _ cur (pickChild lt heap pos) s
        · simp only [List.length_set]; omega
        · simpa using hcp
        · omega
        · intro c hc h0 hs hne
          rw [List.length_set] at hc
          by_cases hppos : (c - 1) / 2 = pos
          · -- edge out of the old hole: target the selected child's value
            have hcc : c = 2 * pos + 1 ∨ c = 2 * pos + 2 := by omega
            have hcne : c ≠ pos := by omega
            rw [hppos, getI_set_self hpos, getI_set_ne (Ne.symm hcne)]
            exact pickChild_spec hswo c hc hcc
          · by_cases hcpos : c = pos
            · -- edge into the old hole, which now holds the child's value
              subst hcpos
              have h1 : (c - 1) / 2 ≠ c := by omega
              rw [getI_set_ne (by omega), getI_set_self hpos]
              exact hupkids (by omega) _ hcp hb
            · rw [getI_set_ne (by omega), getI_set_ne (by omega)]
              exact hedges c hc h0 hs hppos
        · intro _
          have hpar : (pickChild lt heap pos - 1) / 2 = pos := by omega
          rw [hpar, getI_set_self hpos]
          exact hswo.asymm hlt
        · intro _ c hc hcc
          rw [List.length_set] at hc
          have hpar : (pickChild lt heap pos - 1) / 2 = pos := by omega
          have hcne : c ≠ pos := by omega
          have hcp2 : (c - 1) / 2 = pickChild lt heap pos := by omega
          rw [hpar, getI_set_self hpos, getI_set_ne (Ne.symm hcne)]
          have h2 := hedges c hc (by omega) (by omega) (by omega)
          rwa [hcp2] at h2
      · rename_i hlt
        have hltf : lt cur (heap.getI (pickChild lt heap pos)) = false := by
          cases h : lt cur (heap.getI (pickChild lt heap pos)) with
          | false => rfl
          | true => exact absurd h hlt
        -- place the held item: every edge out of or into the final hole is ordered
        intro c hc h0 hs
        rw [List.length_set] at hc
        have hb := pickChild_bounds lt heap pos
        by_cases hppos : (c - 1) / 2 = pos
        · have hcc : c = 2 * pos + 1 ∨ c = 2 * pos + 2 := by omega
          have hcne : c ≠ pos := by omega
          rw [hppos, getI_set_self hpos, getI_set_ne (Ne.symm hcne)]
          exact hswo.not_lt_trans _ _ _ hltf (pickChild_spec hswo c hc hcc)
        · by_cases hcpos : c = pos
          · subst hcpos
            rw [getI_set_ne (by omega), getI_set_self hpos]
            exact hupcur (by omega)
          · rw [getI_set_ne (by omega), getI_set_ne (by omega)]
            exact hedges c hc h0 hs hppos
    · rename_i hguard
      -- no child in range: place the held item
      intro c hc h0 hs
      rw [List.length_set] at hc
      by_cases hppos : (c - 1) / 2 = pos
      · omega
      · by_cases hcpos : c = pos
        · subst hcpos
          rw [getI_set_ne (by omega), getI_set_self hpos]
          exact hupcur (by omega)
        · rw [getI_set_ne (by omega), getI_set_ne (by omega)]
          exact hedges c hc h0 hs hppos

theorem siftdown_length (lt : α → α → Bool) [Inhabited α] (heap : List α) (pos : Nat) :
    (siftdown lt heap pos).length = heap.length :=
  siftdownGo_length lt (heap.getI pos) heap pos heap.length

theorem siftdown_perm {lt : α → α → Bool} [Inhabited α] {heap : List α} {pos : Nat}
    (hpos : pos < heap.length) : List.Perm (siftdown lt heap pos) heap := by
  have h := siftdownGo_perm lt (heap.getI pos) heap pos heap.length hpos
  rwa [set_getI_self heap pos hpos] at h

/-- Correctness of `_siftdown` as used by `heapify`, `heappop`,
`heapreplace` and `heappushpop`: if every edge whose parent is strictly
below the hole is ordered, sifting down from the hole restores order for
all edges whose parent is at least the hole. -/
theorem siftdown_heapFrom {lt : α → α → Bool} [Inhabited α] (hswo : IsSWO lt)
    {heap : List α} {pos : Nat} (hpos : pos < heap.length)
    (hf : HeapFrom lt heap (pos + 1)) :
    HeapFrom lt (siftdown lt heap pos) pos := by
  apply siftdownGo_heapFrom hswo heap.length heap (heap.getI pos) pos pos
  · omega
  · exact hpos
  · exact le_refl pos
  · intro c hc h0 hs hne
    exact hf c hc h0 (by omega)
  · omega
  · omega

/-! ### Sift-up: length, permutation, heap restoration -/

theorem siftupGo_length (lt : α → α → Bool) [Inhabited α] (cur : α) :
    ∀ (heap : List α) (pos fuel : Nat),
      (siftupGo lt cur heap pos fuel).length = heap.length
  | heap, pos, 0 => by simp [siftupGo]
  | heap, pos, fuel + 1 => by
    rw [siftupGo]
    split
    · split
      · rw [siftupGo_length lt cur _ _ fuel]; simp
      · simp
    · simp

theorem siftupGo_perm (lt : α → α → Bool) [Inhabited α] (cur : α) :
    ∀ (heap : List α) (pos fuel : Nat), pos < heap.length →
      List.Perm (siftupGo lt cur heap pos fuel) (heap.set pos cur)
  | _, _, 0, _ => List.Perm.refl _
  | heap, pos, fuel + 1, hpos => by
    rw [siftupGo]
    split
    · rename_i hguard
      split
      · have hpar : (pos - 1) / 2 < heap.length := by omega
        have h1 := siftupGo_perm lt cur
          (heap.set pos (heap.getI ((pos - 1) / 2)))
          ((pos - 1) / 2) fuel (by simpa using hpar)
        exact h1.trans (set_transfer_perm (by omega) hpos hpar cur)
      · exact List.Perm.refl _
    · exact List.Perm.refl _

/-- Placing an item into a hole yields a heap provided all other edges are
ordered, the children of the hole fit below the item, and the item fits
below the parent of the hole. -/
theorem set_isHeap_of {lt : α → α → Bool} [Inhabited α] {heap : List α} {cur : α}
    {pos : Nat} (hpos : pos < heap.length)
    (hedges : ∀ c, c < heap.length → 0 < c → c ≠ pos →
      lt (heap.getI ((c - 1) / 2)) (heap.getI c) = false)
    (hkids : ∀ c, c < heap.length → (c = 2 * pos + 1 ∨ c = 2 * pos + 2) →
      lt cur (heap.getI c) = false)
    (hup : 0 < pos → lt (heap.getI ((pos - 1) / 2)) cur = false) :
    IsHeap lt (heap.set pos cur) := by
  intro c hc h0 _
  rw [List.length_set] at hc
  by_cases hcpos : c = pos
  · rw [hcpos, getI_set_ne (show pos ≠ (pos - 1) / 2 by omega), getI_set_self hpos]
    exact hup (by omega)
  · by_cases hppos : (c - 1) / 2 = pos
    · rw [hppos, getI_set_self hpos, getI_set_ne (show pos ≠ c by omega)]
      exact hkids c hc (by omega)
    · rw [getI_set_ne (show pos ≠ (c - 1) / 2 by omega),
        getI_set_ne (show pos ≠ c by omega)]
      exact hedges c hc h0 (by omega)

/-- Main invariant argument for `_siftup`: if every edge not into the hole
is ordered, the children of the hole fit below both the held item and the
parent of the hole, then after the sift-up the whole list is a heap. -/
theorem siftupGo_isHeap {lt : α → α → Bool} [Inhabited α] (hswo : IsSWO lt) :
    ∀ (fuel : Nat) (heap : List α) (cur : α) (pos : Nat),
      pos ≤ fuel →
      pos < heap.length →
      (∀ c, c < heap.length → 0 < c → c ≠ pos →
        lt (heap.getI ((c - 1) / 2)) (heap.getI c) = false) →
      (∀ c, c < heap.length → (c = 2 * pos + 1 ∨ c = 2 * pos + 2) →
        lt cur (heap.getI c) = false) →
      (0 < pos → ∀ c, c < heap.length → (c = 2 * pos + 1 ∨ c = 2 * pos + 2) →
        lt (heap.getI ((pos - 1) / 2)) (heap.getI c) = false) →
      IsHeap lt (siftupGo lt cur heap pos fuel)
  | 0, heap, cur, pos, hfuel, hpos, hedges, hkids, _ => by
    have hp0 : pos = 0 := by omega
    rw [siftupGo]
    exact set_isHeap_of hpos hedges hkids (by omega)
  | fuel + 1, heap, cur, pos, hfuel, hpos, hedges, hkids, hkidspar => by
    rw [siftupGo]
    split
    · rename_i hguard
      split
      · rename_i hmove
        have hpar : (pos - 1) / 2 < heap.length := by omega
        apply siftupGo_isHeap hswo fuel _ cur ((pos - 1) / 2)
        · omega
        · simpa using hpar
        · -- all edges not into the new hole are ordered
          intro c hc h0 hcpar
          rw [List.length_set] at hc
          by_cases hcpos : c = pos
          · rw [hcpos, getI_set_ne (show pos ≠ (pos - 1) / 2 by omega),
              getI_set_self hpos]
            exact hswo.irrefl _
          · by_cases hppos : (c - 1) / 2 = pos
            · rw [hppos, getI_set_self hpos,
                getI_set_ne (show pos ≠ c by omega)]
              exact hkidspar (by omega) c hc (by omega)
            · rw [getI_set_ne (show pos ≠ (c - 1) / 2 by omega),
                getI_set_ne (show pos ≠ c by omega)]
              exact hedges c hc h0 (by omega)
        · -- the children of the new hole fit below the held item
          intro c hc hcc
          rw [List.length_set] at hc
          by_cases hcpos : c = pos
          · rw [hcpos, getI_set_self hpos]
            exact hswo.asymm hmove
          · rw [getI_set_ne (show pos ≠ c by omega)]
            have hedge := hedges c hc (by omega) (by omega)
            have hpp : (c - 1) / 2 = (pos - 1) / 2 := by omega
            rw [hpp] at hedge
            cases hx : lt cur (heap.getI c) with
            | false => rfl
            | true =>
              have := hswo.lt_trans _ _ _ hmove hx
              rw [hedge] at this
              exact this.symm
        · -- the children of the new hole fit below its parent
          intro hpar0 c hc hcc
          rw [List.length_set] at hc
          have hgp : ((pos - 1) / 2 - 1) / 2 ≠ pos := by omega
          rw [getI_set_ne (show pos ≠ ((pos - 1) / 2 - 1) / 2 by omega)]
          have hedgepar := hedges ((pos - 1) / 2) hpar hpar0 (by omega)
          by_cases hcpos : c = pos
          · rw [hcpos, getI_set_self hpos]
            have hpp : ((pos - 1) / 2 - 1) / 2 = ((pos - 1) / 2 - 1) / 2 := rfl
            exact hedgepar
          · rw [getI_set_ne (show pos ≠ c by omega)]
            have hedge := hedges c hc (by omega) (by omega)
            have hpp : (c - 1) / 2 = (pos - 1) / 2 := by omega
            rw [hpp] at hedge
            exact hswo.not_lt_trans _ _ _ hedgepar hedge
      · rename_i hexit
        have hltf : lt (heap.getI ((pos - 1) / 2)) cur = false := by
          cases hx : lt (heap.getI ((pos - 1) / 2)) cur with
          | false => rfl
          | true => exact absurd hx hexit
        exact set_isHeap_of hpos hedges hkids (fun _ => hltf)
    · rename_i hguard
      exact set_isHeap_of hpos hedges hkids (by omega)

theorem heappush_length (lt : α → α → Bool) [Inhabited α] (heap : List α) (item : α) :
    (heappush lt heap item).length = heap.length + 1 := by
  unfold heappush siftup
  rw [siftupGo_length]
  simp

theorem heappush_perm (lt : α → α → Bool) [Inhabited α] (heap : List α) (item : α) :
    List.Perm (heappush lt heap item) (item :: heap) := by
  unfold heappush siftup
  have hpos : (heap ++ [item]).length - 1 < (heap ++ [item]).length := by simp
  have h1 := siftupGo_perm lt ((heap ++ [item]).getI ((heap ++ [item]).length - 1))
    (heap ++ [item]) ((heap ++ [item]).length - 1) ((heap ++ [item]).length - 1) hpos
  rw [set_getI_self _ _ hpos] at h1
  exact h1.trans (List.perm_append_singleton item heap)

/-- Pushing onto a valid heap yields a valid heap. -/
theorem heappush_isHeap {lt : α → α → Bool} [Inhabited α] (hswo : IsSWO lt)
    {heap : List α} (hh : IsHeap lt heap) (item : α) :
    IsHeap lt (heappush lt heap item) := by
  unfold heappush siftup
  apply siftupGo_isHeap hswo
  · exact le_refl _
  · simp
  · intro c hc h0 hcpos
    simp only [List.length_append, List.length_cons, List.length_nil] at hc hcpos
    have hclt : c < heap.length := by omega
    rw [List.getI_append _ _ _ hclt, List.getI_append _ _ _ (by omega)]
    exact hh c hclt h0 (by omega)
  · intro c hc hcc
    simp only [List.length_append, List.length_cons, List.length_nil] at hc hcc
    omega
  · intro _ c hc hcc
    simp only [List.length_append, List.length_cons, List.length_nil] at hc hcc
    omega

/-! ### heapify: permutation and heap invariant -/

theorem heapifyGo_length (lt : α → α → Bool) [Inhabited α] :
    ∀ (heap : List α) (k : Nat), (heapifyGo lt heap k).length = heap.length
  | _, 0 => rfl
  | heap, k + 1 => by
    rw [heapifyGo, heapifyGo_length lt _ k, siftdown_length]

theorem heapifyGo_perm (lt : α → α → Bool) [Inhabited α] :
    ∀ (heap : List α) (k : Nat), 2 * k ≤ heap.length →
      List.Perm (heapifyGo lt heap k) heap
  | _, 0, _ => List.Perm.refl _
  | heap, k + 1, hk => by
    rw [heapifyGo]
    have hklt : k < heap.length := by omega
    have h1 := heapifyGo_perm lt (siftdown lt heap k) k
      (by rw [siftdown_length]; omega)
    exact h1.trans (siftdown_perm hklt)

/-- Floyd induction: processing parents in reverse level order extends the
ordered region toward index 0. -/
theorem heapifyGo_isHeap {lt : α → α → Bool} [Inhabited α] (hswo : IsSWO lt) :
    ∀ (heap : List α) (k : Nat), 2 * k ≤ heap.length → HeapFrom lt heap k →
      IsHeap lt (heapifyGo lt heap k)
  | _, 0, _, hf => hf
  | heap, k + 1, hk, hf => by
    rw [heapifyGo]
    have hklt : k < heap.length := by omega
    apply heapifyGo_isHeap hswo _ k
    · rw [siftdown_length]; omega
    · exact siftdown_heapFrom hswo hklt hf

theorem heapify_length (lt : α → α → Bool) [Inhabited α] (heap : List α) :
    (heapify lt heap).length = heap.length :=
  heapifyGo_length lt heap (heap.length / 2)

theorem heapify_perm (lt : α → α → Bool) [Inhabited α] (heap : List α) :
    List.Perm (heapify lt heap) heap :=
  heapifyGo_perm lt heap (heap.length / 2) (by omega)

/-- Heapifying any list yields a valid max-heap. -/
theorem heapify_isHeap {lt : α → α → Bool} [Inhabited α] (hswo : IsSWO lt)
    (heap : List α) : IsHeap lt (heapify lt heap) :=
  heapifyGo_isHeap hswo heap (heap.length / 2) (by omega)
    (heapFrom_of_no_children (by omega))

/-! ### The root of a heap is maximal -/

theorem isHeap_root_max {lt : α → α → Bool} [Inhabited α] (hswo : IsSWO lt)
    {l : List α} (hh : IsHeap lt l) :
    ∀ j, j < l.length → lt (l.getI 0) (l.getI j) = false
  | 0, _ => hswo.irrefl _
  | j + 1, hj => by
    have hpar := hh (j + 1) hj (by omega) (by omega)
    have hih := isHeap_root_max hswo hh (j / 2) (by omega)
    have hpp : (j + 1 - 1) / 2 = j / 2 := by omega
    rw [hpp] at hpar
    exact hswo.not_lt_trans _ _ _ hih hpar

theorem isHeap_root_max_mem {lt : α → α → Bool} [Inhabited α] (hswo : IsSWO lt)
    {l : List α} (hh : IsHeap lt l) : ∀ x ∈ l, lt (l.getI 0) x = false := by
  intro x hx
  obtain ⟨j, hj, hx2⟩ := List.getElem_of_mem hx
  rw [← hx2, ← List.getI_eq_getElem _ hj]
  exact isHeap_root_max hswo hh j hj

/-! ### heappop -/

theorem heappop_eq {lt : α → α → Bool} [Inhabited α] :
    ∀ {l : List α}, l ≠ [] →
      heappop lt l = some (l.getI 0, heappopRest lt l)
  | [], h => absurd rfl h
  | [a], _ => by simp [heappop, heappopRest]
  | a :: b :: t, _ => by
    rw [heappop, heappopRest, List.getLast?_eq_getLast _ (by simp)]
    simp only [List.dropLast_cons₂]
    rw [if_neg (by simp), if_neg (by simp)]
    rfl

theorem heappopRest_length {lt : α → α → Bool} [Inhabited α] :
    ∀ {l : List α}, l ≠ [] → (heappopRest lt l).length = l.length - 1
  | [], h => absurd rfl h
  | [a], _ => by simp [heappopRest]
  | a :: b :: t, _ => by
    rw [heappopRest, List.getLast?_eq_getLast _ (by simp)]
    simp only [List.dropLast_cons₂]
    rw [if_neg (by simp)]
    rw [siftdown_length]
    simp [List.length_dropLast]

theorem heappopRest_perm {lt : α → α → Bool} [Inhabited α] :
    ∀ {l : List α}, l ≠ [] → List.Perm (l.getI 0 :: heappopRest lt l) l
  | [], h => absurd rfl h
  | [a], _ => by simp [heappopRest]
  | a :: b :: t, _ => by
    rw [heappopRest, List.getLast?_eq_getLast _ (by simp)]
    simp only [List.dropLast_cons₂, List.set_cons_zero, List.getI_cons_zero]
    rw [if_neg (by simp)]
    have hsd : List.Perm
        (siftdown lt ((a :: b :: t).getLast (by simp) :: (b :: t).dropLast) 0)
        ((a :: b :: t).getLast (by simp) :: (b :: t).dropLast) :=
      siftdown_perm (by simp)
    refine (List.Perm.cons a hsd).trans ?_
    have h1 : (a :: b :: t).dropLast ++ [(a :: b :: t).getLast (by simp)] =
        a :: b :: t := List.dropLast_append_getLast (by simp)
    rw [List.dropLast_cons₂, List.cons_append] at h1
    have h2 := List.Perm.cons a
      (List.perm_append_singleton ((a :: b :: t).getLast (by simp))
        ((b :: t).dropLast)).symm
    refine List.Perm.trans h2 ?_
    rw [h1]

theorem heapFrom_dropLast {lt : α → α → Bool} [Inhabited α] {l : List α} {s : Nat}
    (h : HeapFrom lt l s) : HeapFrom lt l.dropLast s := by
  intro c hc h0 hs
  rw [getI_dropLast hc, getI_dropLast (by simp at hc ⊢; omega)]
  exact h c (by simp at hc; omega) h0 hs

/-- Popping a valid non-empty heap leaves a valid heap. -/
theorem heappopRest_isHeap {lt : α → α → Bool} [Inhabited α] (hswo : IsSWO lt) :
    ∀ {l : List α}, l ≠ [] → IsHeap lt l → IsHeap lt (heappopRest lt l)
  | [], h, _ => absurd rfl h
  | [a], _, _ => by
    have he : heappopRest lt [a] = [] := by simp [heappopRest]
    rw [he]
    intro c hc h0 hs
    simp at hc
  | a :: b :: t, _, hh => by
    rw [heappopRest, List.getLast?_eq_getLast _ (by simp)]
    simp only [List.dropLast_cons₂]
    rw [if_neg (by simp)]
    have hf1 : HeapFrom lt (a :: b :: t) 1 := HeapFrom.mono (by omega) hh
    have hf2 : HeapFrom lt (a :: b :: t).dropLast 1 := heapFrom_dropLast hf1
    rw [List.dropLast_cons₂] at hf2
    have hf3 := heapFrom_one_set_zero hf2 ((a :: b :: t).getLast (by simp))
    have h0 : (0 : Nat) <
        ((a :: (b :: t).dropLast).set 0 ((a :: b :: t).getLast (by simp))).length := by
      simp
    exact siftdown_heapFrom hswo h0 hf3

/-! ### Agreement of the bounds-checked sift routines with the plain ones -/

theorem writeIdx_eq {l : List α} {i : Nat} (h : i < l.length) (x : α) :
    writeIdx l i x = some (l.set i x) := if_pos h

theorem readIdx_eq [Inhabited α] {l : List α} {i : Nat} (h : i < l.length) :
    readIdx l i = some (l.getI i) := by
  rw [readIdx, List.getElem?_eq_getElem h, List.getI_eq_getElem _ h]

theorem siftdownGoChk_eq (lt : α → α → Bool) [Inhabited α] (cur : α) :
    ∀ (heap : List α) (pos fuel : Nat), pos < heap.length → heap.length ≤ fuel + pos →
      siftdownGoChk lt cur heap pos fuel = some (siftdownGo lt cur heap pos fuel)
  | heap, pos, 0, hpos, hfuel => by omega
  | heap, pos, fuel + 1, hpos, hfuel => by
    rw [siftdownGoChk, siftdownGo]
    by_cases hg : 2 * pos + 1 < heap.length
    · rw [if_pos hg, if_pos hg]
      have hsel : (if 2 * pos + 2 < heap.length then
            match readIdx heap (2 * pos + 1), readIdx heap (2 * pos + 2) with
            | some a, some b =>
              if lt a b = true then some (2 * pos + 2) else some (2 * pos + 1)
            | _, _ => none
          else some (2 * pos + 1)) = some (pickChild lt heap pos) := by
        by_cases hr : 2 * pos + 2 < heap.length
        · rw [if_pos hr, readIdx_eq hg, readIdx_eq hr]
          dsimp only
          unfold pickChild
          by_cases hab : lt (heap.getI (2 * pos + 1)) (heap.getI (2 * pos + 2)) = true
          · rw [if_pos hab, if_pos ⟨hr, hab⟩]
          · rw [if_neg hab, if_neg (by tauto)]
        · rw [if_neg hr]
          unfold pickChild
          rw [if_neg (by tauto)]
      rw [hsel]
      dsimp only
      rw [readIdx_eq (pickChild_lt_length lt hg)]
      dsimp only
      by_cases hlt : lt cur (heap.getI (pickChild lt heap pos)) = true
      · rw [if_pos hlt, if_pos hlt, writeIdx_eq hpos]
        dsimp only
        have hb := pickChild_bounds lt heap pos
        exact siftdownGoChk_eq lt cur _ _ fuel
          (by simpa using pickChild_lt_length lt hg)
          (by simp only [List.length_set]; omega)
      · rw [if_neg hlt, if_neg hlt, writeIdx_eq hpos]
    · rw [if_neg hg, if_neg hg, writeIdx_eq hpos]

theorem siftupGoChk_eq (lt : α → α → Bool) [Inhabited α] (cur : α) :
    ∀ (heap : List α) (pos fuel : Nat), pos < heap.length → pos ≤ fuel →
      siftupGoChk lt cur heap pos fuel = some (siftupGo lt cur heap pos fuel)
  | heap, pos, 0, hpos, hfuel => by
    rw [siftupGoChk, siftupGo, writeIdx_eq hpos]
  | heap, pos, fuel + 1, hpos, hfuel => by
    rw [siftupGoChk, siftupGo]
    by_cases hg : 0 < pos
    · rw [if_pos hg, if_pos hg,
        readIdx_eq (show (pos - 1) / 2 < heap.length by omega)]
      dsimp only
      by_cases hlt : lt (heap.getI ((pos - 1) / 2)) cur = true
      · rw [if_pos hlt, if_pos hlt, writeIdx_eq hpos]
        dsimp only
        exact siftupGoChk_eq lt cur _ _ fuel
          (by simp only [List.length_set]; omega) (by omega)
      · rw [if_neg hlt, if_neg hlt, writeIdx_eq hpos]
    · rw [if_neg hg, if_neg hg, writeIdx_eq hpos]

/-- The bounds-checked `_siftdown` succeeds and agrees with the plain
`_siftdown` whenever the start position is in range: no element access of
`_siftdown` ever goes out of range. -/
theorem siftdownChk_eq (lt : α → α → Bool) [Inhabited α] {heap : List α} {pos : Nat}
    (h : pos < heap.length) :
    siftdownChk lt heap pos = some (siftdown lt heap pos) := by
  rw [siftdownChk, readIdx_eq h]
  dsimp only
  exact siftdownGoChk_eq lt _ heap pos heap.length h (by omega)

/-- The bounds-checked `_siftup` succeeds and agrees with the plain
`_siftup` whenever the start position is in range. -/
theorem siftupChk_eq (lt : α → α → Bool) [Inhabited α] {heap : List α} {pos : Nat}
    (h : pos < heap.length) :
    siftupChk lt heap pos = some (siftup lt heap pos) := by
  rw [siftupChk, readIdx_eq h]
  dsimp only
  exact siftupGoChk_eq lt _ heap pos pos h (le_refl pos)

/-- The bounds-checked `heappush` always succeeds (on any list, heap or
not) and agrees with the plain `heappush`. -/
theorem heappushChk_eq (lt : α → α → Bool) [Inhabited α] (heap : List α) (item : α) :
    heappushChk lt heap item = some (heappush lt heap item) := by
  rw [heappushChk, heappush]
  exact siftupChk_eq lt (by simp)

/-! ### Draining a heap by repeated heappop -/

/-- Repeatedly apply `heappop`, collecting the returned maxima, for a given
number of pops (`none`, which cannot occur while elements remain, stops). -/
def drainGo (lt : α → α → Bool) [Inhabited α] : Nat → List α → List α
  | 0, _ => []
  | n + 1, heap =>
    match heappop lt heap with
    | none => []
    | some (x, rest) => x :: drainGo lt n rest

/-- Pop every element off the heap in turn, collecting the results. -/
def drain (lt : α → α → Bool) [Inhabited α] (heap : List α) : List α :=
  drainGo lt heap.length heap

theorem drainGo_perm_sorted {lt : α → α → Bool} [Inhabited α] (hswo : IsSWO lt) :
    ∀ (n : Nat) (heap : List α), heap.length = n → IsHeap lt heap →
      List.Perm (drainGo lt n heap) heap ∧
      List.Pairwise (fun a b => lt a b = false) (drainGo lt n heap)
  | 0, heap, hn, _ => by
    have : heap = [] := List.eq_nil_of_length_eq_zero hn
    subst this
    exact ⟨List.Perm.refl _, List.Pairwise.nil⟩
  | n + 1, heap, hn, hh => by
    have hne : heap ≠ [] := by intro h; rw [h] at hn; simp at hn
    rw [drainGo, heappop_eq hne]
    dsimp only
    have hlen : (heappopRest lt heap).length = n := by
      rw [heappopRest_length hne]; omega
    have hih := drainGo_perm_sorted hswo n (heappopRest lt heap) hlen
      (heappopRest_isHeap hswo hne hh)
    constructor
    · exact (List.Perm.cons _ hih.1).trans (heappopRest_perm hne)
    · refine List.pairwise_cons.2 ⟨?_, hih.2⟩
      intro y hy
      have hy2 : y ∈ heappopRest lt heap := hih.1.mem_iff.1 hy
      have hy3 : y ∈ heap := (heappopRest_perm hne).mem_iff.1 (List.mem_cons_of_mem _ hy2)
      exact isHeap_root_max_mem hswo hh y hy3

/-! ### Strict-weak-order structure of the record comparisons -/

/-- Characterisation and strict-weak-order structure of a two-component
lexicographic Bool comparison, as produced by Python comparing the record
lists `[value, order, ...]` position by position. -/
theorem isSWO_lex {γ : Type} {β : Type} [LinearOrder β] (v : γ → β) (o : γ → Nat) :
    IsSWO (fun a b : γ =>
      if v a < v b then true else if v b < v a then false else decide (o a < o b)) := by
  have hiff : ∀ a b : γ,
      ((if v a < v b then true else if v b < v a then false
        else decide (o a < o b)) = true) ↔
        (v a < v b ∨ (v a = v b ∧ o a < o b)) := by
    intro a b
    split
    · rename_i h1
      simp [h1]
    · rename_i h1
      split
      · rename_i h2
        simp only [Bool.false_eq_true, false_iff, not_or, not_and, not_lt]
        exact ⟨le_of_lt h2, fun he => absurd h2 (by rw [he]; exact lt_irrefl _)⟩
      · rename_i h2
        have heq : v a = v b := le_antisymm (not_lt.1 h2) (not_lt.1 h1)
        simp [heq]
  constructor
  · intro a
    cases hx : (if v a < v a then true else if v a < v a then false
        else decide (o a < o a)) with
    | false => rfl
    | true =>
      rw [hiff a a] at hx
      rcases hx with hx | hx
      · exact absurd hx (lt_irrefl _)
      · exact absurd hx.2 (lt_irrefl _)
  · intro a b c h1 h2
    rw [hiff] at h1 h2 ⊢
    rcases h1 with h1 | ⟨h1e, h1o⟩ <;> rcases h2 with h2 | ⟨h2e, h2o⟩
    · exact Or.inl (lt_trans h1 h2)
    · exact Or.inl (h2e ▸ h1)
    · exact Or.inl (h1e ▸ h2)
    · exact Or.inr ⟨h1e.trans h2e, by omega⟩
  · intro a b c h1 h2
    cases hx : (if v a < v c then true else if v c < v a then false
        else decide (o a < o c)) with
    | false => rfl
    | true =>
      exfalso
      have hx2 := (hiff a c).1 hx
      have h1n : ¬ (v a < v b ∨ (v a = v b ∧ o a < o b)) := by
        intro hcon
        have h3 := (hiff a b).2 hcon
        rw [h1] at h3
        exact Bool.false_ne_true h3
      have h2n : ¬ (v b < v c ∨ (v b = v c ∧ o b < o c)) := by
        intro hcon
        have h3 := (hiff b c).2 hcon
        rw [h2] at h3
        exact Bool.false_ne_true h3
      push_neg at h1n h2n
      have hba : v b ≤ v a := h1n.1
      have hcb : v c ≤ v b := h2n.1
      rcases hx2 with hx2 | ⟨hxe, hxo⟩
      · exact absurd hx2 (not_lt.2 (le_trans hcb hba))
      · have hab : v a = v b := le_antisymm ((le_of_eq hxe).trans hcb) hba
        have hbc : v b = v c := hab.symm.trans hxe
        have ho1 : o b ≤ o a := h1n.2 hab
        have ho2 : o c ≤ o b := h2n.2 hbc
        omega

/-- Comparison of `[value, order, next]` records is a strict weak order. -/
theorem recLt_isSWO [LinearOrder α] : IsSWO (fun a b : MRec α => recLt a b) :=
  isSWO_lex MRec.value MRec.order

/-- Comparison of `[key(value), order, value, next]` records is a strict
weak order. -/
theorem recLtK_isSWO [LinearOrder κ] : IsSWO (fun a b : KRec κ α => recLtK a b) :=
  isSWO_lex KRec.keyval KRec.order

/-! ### merge: every input element is emitted exactly once -/

/-- Elements still to be emitted from one record (no key). -/
def recElems (r : MRec α) : List α := r.value :: r.rest

/-- Elements still to be emitted from one record (with key). -/
def recElemsK (r : KRec κ α) : List α := r.value :: r.rest

theorem msum_cons (r : MRec α) (t : List (MRec α)) :
    msum (r :: t) = r.rest.length + 1 + msum t := by
  simp [msum]

theorem msum_perm {h1 h2 : List (MRec α)} (hp : List.Perm h1 h2) :
    msum h1 = msum h2 :=
  List.Perm.sum_eq (hp.map _)

theorem msumK_cons (r : KRec κ α) (t : List (KRec κ α)) :
    msumK (r :: t) = r.rest.length + 1 + msumK t := by
  simp [msumK]

theorem msumK_perm {h1 h2 : List (KRec κ α)} (hp : List.Perm h1 h2) :
    msumK h1 = msumK h2 :=
  List.Perm.sum_eq (hp.map _)

theorem mergeGo_perm [LinearOrder α] [Inhabited α] :
    ∀ (fuel : Nat) (h : List (MRec α)), msum h ≤ fuel →
      List.Perm (mergeGo h fuel) (h.map recElems).flatten
  | 0, h, hf => by
    cases h with
    | nil => rw [mergeGo.eq_def]; exact List.Perm.refl _
    | cons r t => rw [msum_cons] at hf; omega
  | fuel + 1, h, hf => by
    cases h with
    | nil => rw [mergeGo.eq_def]; simp
    | cons s t =>
      rw [mergeGo.eq_def]
      dsimp only
      by_cases hlen : 1 < (s :: t).length
      · rw [if_pos hlen]
        obtain ⟨sv, so, sr⟩ := s
        dsimp only
        cases sr with
        | cons v vs =>
          dsimp only
          have hperm : List.Perm (siftdown recLt (⟨v, so, vs⟩ :: t) 0)
              (⟨v, so, vs⟩ :: t) := siftdown_perm (by simp)
          have hmsum : msum (siftdown recLt (⟨v, so, vs⟩ :: t) 0) ≤ fuel := by
            rw [msum_perm hperm, msum_cons]
            rw [msum_cons] at hf
            simp only [List.length_cons] at hf ⊢
            omega
          have hih := mergeGo_perm fuel _ hmsum
          exact List.Perm.cons sv (hih.trans ((hperm.map recElems).flatten))
        | nil =>
          dsimp only
          have hne : (MRec.mk sv so [] :: t) ≠ [] := by simp
          have hpp : List.Perm ((MRec.mk sv so [] :: t).getI 0 ::
              heappopRest recLt (MRec.mk sv so [] :: t)) (MRec.mk sv so [] :: t) :=
            heappopRest_perm hne
          rw [List.getI_cons_zero] at hpp
          have hpt : List.Perm (heappopRest recLt (MRec.mk sv so [] :: t)) t :=
            List.Perm.cons_inv hpp
          have hmsum : msum (heappopRest recLt (MRec.mk sv so [] :: t)) ≤ fuel := by
            rw [msum_perm hpt]
            rw [msum_cons] at hf
            simp only [List.length_nil] at hf
            omega
          have hih := mergeGo_perm fuel _ hmsum
          exact List.Perm.cons sv (hih.trans ((hpt.map recElems).flatten))
      · rw [if_neg hlen]
        cases t with
        | nil => simp [recElems]
        | cons r t2 => simp at hlen

theorem mergeBuild_flatten [LinearOrder α] [Inhabited α] :
    ∀ (its : List (List α)) (h : List (MRec α)) (order : Nat),
      List.Perm ((mergeBuild h its order).map recElems).flatten
        ((h.map recElems).flatten ++ its.flatten)
  | [], h, _ => by rw [mergeBuild.eq_def]; simp
  | it :: more, h, order => by
    cases it with
    | nil =>
      rw [mergeBuild.eq_def]
      dsimp only
      have h1 := mergeBuild_flatten more (heapify recLt h) (order + 1)
      refine h1.trans ?_
      have h2 := (((heapify_perm recLt h).map recElems).flatten).append_right
        more.flatten
      simpa using h2
    | cons v vs =>
      rw [mergeBuild.eq_def]
      dsimp only
      have h1 := mergeBuild_flatten more (heapify recLt (h ++ [⟨v, order, vs⟩]))
        (order + 1)
      refine h1.trans ?_
      have h2 := (((heapify_perm recLt (h ++ [⟨v, order, vs⟩])).map
        recElems).flatten).append_right more.flatten
      refine h2.trans ?_
      simp [recElems, List.append_assoc]

/-- Without a key function: `merge` emits exactly the elements of all
inputs, each exactly once. -/
theorem merge_perm [LinearOrder α] [Inhabited α] (its : List (List α)) :
    List.Perm (merge its) its.flatten := by
  rw [merge]
  have h1 := mergeGo_perm (msum (mergeBuild [] its 0)) (mergeBuild [] its 0)
    (le_refl _)
  refine h1.trans ?_
  have h2 := mergeBuild_flatten its [] 0
  simpa using h2

theorem mergeGoK_perm [LinearOrder κ] [Inhabited κ] [Inhabited α] (key : α → κ) :
    ∀ (fuel : Nat) (h : List (KRec κ α)), msumK h ≤ fuel →
      List.Perm (mergeGoK key h fuel) (h.map recElemsK).flatten
  | 0, h, hf => by
    cases h with
    | nil => rw [mergeGoK.eq_def]; exact List.Perm.refl _
    | cons r t => rw [msumK_cons] at hf; omega
  | fuel + 1, h, hf => by
    cases h with
    | nil => rw [mergeGoK.eq_def]; simp
    | cons s t =>
      rw [mergeGoK.eq_def]
      dsimp only
      by_cases hlen : 1 < (s :: t).length
      · rw [if_pos hlen]
        obtain ⟨sk, so, sv, sr⟩ := s
        dsimp only
        cases sr with
        | cons v vs =>
          dsimp only
          have hperm : List.Perm (siftdown recLtK (⟨key v, so, v, vs⟩ :: t) 0)
              (⟨key v, so, v, vs⟩ :: t) := siftdown_perm (by simp)
          have hmsum : msumK (siftdown recLtK (⟨key v, so, v, vs⟩ :: t) 0) ≤ fuel := by
            rw [msumK_perm hperm, msumK_cons]
            rw [msumK_cons] at hf
            simp only [List.length_cons] at hf ⊢
            omega
          have hih := mergeGoK_perm key fuel _ hmsum
          exact List.Perm.cons sv (hih.trans ((hperm.map recElemsK).flatten))
        | nil =>
          dsimp only
          have hne : (KRec.mk sk so sv [] :: t) ≠ [] := by simp
          have hpp : List.Perm ((KRec.mk sk so sv [] :: t).getI 0 ::
              heappopRest recLtK (KRec.mk sk so sv [] :: t)) (KRec.mk sk so sv [] :: t) :=
            heappopRest_perm hne
          rw [List.getI_cons_zero] at hpp
          have hpt : List.Perm (heappopRest recLtK (KRec.mk sk so sv [] :: t)) t :=
            List.Perm.cons_inv hpp
          have hmsum : msumK (heappopRest recLtK (KRec.mk sk so sv [] :: t)) ≤ fuel := by
            rw [msumK_perm hpt]
            rw [msumK_cons] at hf
            simp only [List.length_nil] at hf
            omega
          have hih := mergeGoK_perm key fuel _ hmsum
          exact List.Perm.cons sv (hih.trans ((hpt.map recElemsK).flatten))
      · rw [if_neg hlen]
        cases t with
        | nil => simp [recElemsK]
        | cons r t2 => simp at hlen

theorem mergeBuildK_flatten (key : α → κ) :
    ∀ (its : List (List α)) (h : List (KRec κ α)) (order : Nat),
      ((mergeBuildK key h its order).map recElemsK).flatten =
        (h.map recElemsK).flatten ++ its.flatten
  | [], h, _ => by rw [mergeBuildK.eq_def]; simp
  | it :: more, h, order => by
    cases it with
    | nil =>
      rw [mergeBuildK.eq_def]
      dsimp only
      rw [mergeBuildK_flatten key more h (order + 1)]
      simp
    | cons v vs =>
      rw [mergeBuildK.eq_def]
      dsimp only
      rw [mergeBuildK_flatten key more (h ++ [KRec.mk (key v) order v vs]) (order + 1)]
      simp [recElemsK, List.append_assoc]

/-- With a key function: `merge` emits exactly the elements of all inputs,
each exactly once. -/
theorem mergeK_perm [LinearOrder κ] [Inhabited κ] [Inhabited α] (key : α → κ)
    (its : List (List α)) : List.Perm (mergeK key its) its.flatten := by
  rw [mergeK]
  have h1 := mergeGoK_perm key (msumK (heapify recLtK (mergeBuildK key [] its 0)))
    (heapify recLtK (mergeBuildK key [] its 0)) (le_refl _)
  refine h1.trans ?_
  have h2 := ((heapify_perm recLtK (mergeBuildK key [] its 0)).map recElemsK).flatten
  refine h2.trans ?_
  rw [mergeBuildK_flatten key its [] 0]
  simp

/-! ### merge without a key: the output is descending when the inputs are -/

theorem recLt_false_value_le [LinearOrder α] {a b : MRec α}
    (h : recLt a b = false) : b.value ≤ a.value := by
  unfold recLt at h
  by_cases h1 : a.value < b.value
  · rw [if_pos h1] at h
    exact absurd h (by simp)
  · exact not_lt.1 h1

/-- Every element `mergeGo` can still emit is dominated by `z` as soon as
every record value is. -/
theorem mergeGo_le_of [LinearOrder α] [Inhabited α] {fuel : Nat}
    {h : List (MRec α)} {z : α} (hf : msum h ≤ fuel)
    (hrecs : ∀ r ∈ h, List.Pairwise (fun x y : α => y ≤ x) (recElems r))
    (hval : ∀ r ∈ h, r.value ≤ z) :
    ∀ y ∈ mergeGo h fuel, y ≤ z := by
  intro y hy
  have hy2 := (mergeGo_perm fuel h hf).mem_iff.1 hy
  rw [List.mem_flatten] at hy2
  obtain ⟨l, hl, hyl⟩ := hy2
  rw [List.mem_map] at hl
  obtain ⟨r, hr, rfl⟩ := hl
  have hyl2 : y = r.value ∨ y ∈ r.rest := by simpa [recElems] using hyl
  rcases hyl2 with rfl | hyr
  · exact hval r hr
  · exact le_trans (List.rel_of_pairwise_cons (hrecs r hr) hyr) (hval r hr)

theorem mergeGo_sorted [LinearOrder α] [Inhabited α] :
    ∀ (fuel : Nat) (h : List (MRec α)), msum h ≤ fuel →
      IsHeap recLt h →
      (∀ r ∈ h, List.Pairwise (fun x y : α => y ≤ x) (recElems r)) →
      List.Pairwise (fun x y : α => y ≤ x) (mergeGo h fuel)
  | 0, h, hf, _, _ => by
    cases h with
    | nil => rw [mergeGo.eq_def]; exact List.Pairwise.nil
    | cons r t => rw [msum_cons] at hf; omega
  | fuel + 1, h, hf, hheap, hrecs => by
    cases h with
    | nil => rw [mergeGo.eq_def]; simp
    | cons s t =>
      rw [mergeGo.eq_def]
      dsimp only
      by_cases hlen : 1 < (s :: t).length
      · rw [if_pos hlen]
        obtain ⟨sv, so, sr⟩ := s
        have hroot : ∀ r ∈ (MRec.mk sv so sr) :: t, r.value ≤ sv := by
          intro r hr
          have h2 := isHeap_root_max_mem recLt_isSWO hheap r hr
          rw [List.getI_cons_zero] at h2
          exact recLt_false_value_le h2
        have hrec0 := hrecs _ (List.mem_cons_self _ _)
        dsimp only
        cases sr with
        | cons v vs =>
          dsimp only
          have hperm : List.Perm (siftdown recLt (⟨v, so, vs⟩ :: t) 0)
              (⟨v, so, vs⟩ :: t) := siftdown_perm (by simp)
          have hmsum : msum (siftdown recLt (⟨v, so, vs⟩ :: t) 0) ≤ fuel := by
            rw [msum_perm hperm, msum_cons]
            rw [msum_cons] at hf
            simp only [List.length_cons] at hf ⊢
            omega
          have hmem : ∀ r ∈ siftdown recLt (⟨v, so, vs⟩ :: t) 0,
              r = MRec.mk v so vs ∨ r ∈ t := by
            intro r hr
            have := hperm.mem_iff.1 hr
            simpa using this
          have hheap1 : HeapFrom recLt
              ((MRec.mk sv so (v :: vs) :: t).set 0 (MRec.mk v so vs)) 1 :=
            heapFrom_one_set_zero (HeapFrom.mono (by omega) hheap) _
          rw [List.set_cons_zero] at hheap1
          have hheap2 : IsHeap recLt (siftdown recLt (⟨v, so, vs⟩ :: t) 0) :=
            siftdown_heapFrom recLt_isSWO (by simp) hheap1
          have hrecs2 : ∀ r ∈ siftdown recLt (⟨v, so, vs⟩ :: t) 0,
              List.Pairwise (fun x y : α => y ≤ x) (recElems r) := by
            intro r hr
            rcases hmem r hr with rfl | hr2
            · exact List.Pairwise.of_cons hrec0
            · exact hrecs r (List.mem_cons_of_mem _ hr2)
          refine List.pairwise_cons.2 ⟨?_, mergeGo_sorted fuel _ hmsum hheap2 hrecs2⟩
          refine mergeGo_le_of hmsum hrecs2 ?_
          intro r hr
          rcases hmem r hr with rfl | hr2
          · exact List.rel_of_pairwise_cons hrec0 (List.mem_cons_self _ _)
          · exact hroot r (List.mem_cons_of_mem _ hr2)
        | nil =>
          dsimp only
          have hne : (MRec.mk sv so [] :: t) ≠ [] := by simp
          have hpp : List.Perm ((MRec.mk sv so [] :: t).getI 0 ::
              heappopRest recLt (MRec.mk sv so [] :: t)) (MRec.mk sv so [] :: t) :=
            heappopRest_perm hne
          rw [List.getI_cons_zero] at hpp
          have hpt : List.Perm (heappopRest recLt (MRec.mk sv so [] :: t)) t :=
            List.Perm.cons_inv hpp
          have hmsum : msum (heappopRest recLt (MRec.mk sv so [] :: t)) ≤ fuel := by
            rw [msum_perm hpt]
            rw [msum_cons] at hf
            simp only [List.length_nil] at hf
            omega
          have hheap2 : IsHeap recLt (heappopRest recLt (MRec.mk sv so [] :: t)) :=
            heappopRest_isHeap recLt_isSWO hne hheap
          have hrecs2 : ∀ r ∈ heappopRest recLt (MRec.mk sv so [] :: t),
              List.Pairwise (fun x y : α => y ≤ x) (recElems r) := by
            intro r hr
            exact hrecs r (List.mem_cons_of_mem _ (hpt.mem_iff.1 hr))
          refine List.pairwise_cons.2 ⟨?_, mergeGo_sorted fuel _ hmsum hheap2 hrecs2⟩
          refine mergeGo_le_of hmsum hrecs2 ?_
          intro r hr
          exact hroot r (List.mem_cons_of_mem _ (hpt.mem_iff.1 hr))
      · rw [if_neg hlen]
        exact hrecs s (List.mem_cons_self _ _)

theorem mergeBuild_isHeap [LinearOrder α] [Inhabited α] :
    ∀ (its : List (List α)) (h : List (MRec α)) (order : Nat),
      IsHeap recLt h → IsHeap recLt (mergeBuild h its order)
  | [], _, _, hh => by rw [mergeBuild.eq_def]; exact hh
  | it :: more, h, order, _ => by
    cases it with
    | nil =>
      rw [mergeBuild.eq_def]
      dsimp only
      exact mergeBuild_isHeap more _ _ (heapify_isHeap recLt_isSWO _)
    | cons v vs =>
      rw [mergeBuild.eq_def]
      dsimp only
      exact mergeBuild_isHeap more _ _ (heapify_isHeap recLt_isSWO _)

theorem mergeBuild_records [LinearOrder α] [Inhabited α] :
    ∀ (its : List (List α)) (h : List (MRec α)) (order : Nat),
      (∀ r ∈ h, List.Pairwise (fun x y : α => y ≤ x) (recElems r)) →
      (∀ l ∈ its, List.Pairwise (fun x y : α => y ≤ x) l) →
      ∀ r ∈ mergeBuild h its order,
        List.Pairwise (fun x y : α => y ≤ x) (recElems r)
  | [], _, _, hr, _ => by rw [mergeBuild.eq_def]; exact hr
  | it :: more, h, order, hr, hits => by
    cases it with
    | nil =>
      rw [mergeBuild.eq_def]; dsimp only
      refine mergeBuild_records more _ _ ?_
        (fun l hl => hits l (List.mem_cons_of_mem _ hl))
      intro r hrr
      exact hr r ((heapify_perm recLt h).mem_iff.1 hrr)
    | cons v vs =>
      rw [mergeBuild.eq_def]; dsimp only
      refine mergeBuild_records more _ _ ?_
        (fun l hl => hits l (List.mem_cons_of_mem _ hl))
      intro r hrr
      have hr2 := (heapify_perm recLt _).mem_iff.1 hrr
      rcases List.mem_append.1 hr2 with hr3 | hr3
      · exact hr r hr3
      · rw [List.mem_singleton] at hr3
        subst hr3
        exact hits (v :: vs) (List.mem_cons_self _ _)

/-- Without a key function, on descending inputs, `merge` emits a
descending sequence. -/
theorem merge_sorted [LinearOrder α] [Inhabited α] {its : List (List α)}
    (hs : ∀ l ∈ its, List.Pairwise (fun x y : α => y ≤ x) l) :
    List.Pairwise (fun x y : α => y ≤ x) (merge its) := by
  rw [merge]
  apply mergeGo_sorted _ _ (le_refl _)
  · refine mergeBuild_isHeap its [] 0 ?_
    intro c hc
    simp at hc
  · refine mergeBuild_records its [] 0 ?_ hs
    intro r hr
    simp at hr

/-! ### Conversions for the linear-order comparison -/

theorem ltb_true [LinearOrder α] {a b : α} : ltb a b = true ↔ a < b := by
  simp [ltb]

theorem ltb_false [LinearOrder α] {a b : α} : ltb a b = false ↔ b ≤ a := by
  simp [ltb]

theorem getI_zero_mem [Inhabited α] {l : List α} (h : 0 < l.length) :
    l.getI 0 ∈ l := by
  rw [List.getI_eq_getElem _ h]
  exact List.getElem_mem h

theorem cons_getI_set_zero_perm [Inhabited α] {l : List α} (h : l ≠ []) (x : α) :
    List.Perm (l.getI 0 :: l.set 0 x) (x :: l) := by
  cases l with
  | nil => exact absurd rfl h
  | cons a t => simpa using List.Perm.swap x a t

/-! ### The claims -/

/-- C1: for every list of mutually comparable elements (any linear order,
hence including duplicates and negative numbers), `heapify` turns the list
into a permutation of its original elements that satisfies the max-heap
invariant: `element[i] >= element[2i+1]` and `element[i] >= element[2i+2]`
whenever those indices are in range. -/
theorem heapify_spec [LinearOrder α] [Inhabited α] (l : List α) :
    List.Perm (heapify ltb l) l ∧
    ∀ i : Nat,
      (2 * i + 1 < (heapify ltb l).length →
        (heapify ltb l).getI (2 * i + 1) ≤ (heapify ltb l).getI i) ∧
      (2 * i + 2 < (heapify ltb l).length →
        (heapify ltb l).getI (2 * i + 2) ≤ (heapify ltb l).getI i) := by
  refine ⟨heapify_perm ltb l, fun i => ⟨fun h1 => ?_, fun h2 => ?_⟩⟩
  · have h3 := heapify_isHeap ltb_isSWO l (2 * i + 1) h1 (by omega) (by omega)
    have hp : (2 * i + 1 - 1) / 2 = i := by omega
    rw [hp] at h3
    exact ltb_false.1 h3
  · have h3 := heapify_isHeap ltb_isSWO l (2 * i + 2) h2 (by omega) (by omega)
    have hp : (2 * i + 2 - 1) / 2 = i := by omega
    rw [hp] at h3
    exact ltb_false.1 h3

theorem heapify_spec_witness :
    List.Perm (heapify ltb ([3, -1, 3, 7] : List ℤ)) [3, -1, 3, 7] ∧
    (heapify ltb ([3, -1, 3, 7] : List ℤ)).getI 1 ≤
      (heapify ltb ([3, -1, 3, 7] : List ℤ)).getI 0 :=
  ⟨(heapify_spec [3, -1, 3, 7]).1,
   ((heapify_spec ([3, -1, 3, 7] : List ℤ)).2 0).1 (by decide)⟩

/-- C2: merging finitely many descending inputs (no key function) yields
exactly the elements of all inputs, in overall descending order, and the
model is a total function, so the merge terminates once all inputs are
exhausted; in particular the inputs `[6,5,3,2,2,1]`, `[9,7,4,3,1]`, `[10]`
yield exactly `[10,9,7,6,5,4,3,3,2,2,1,1]`, and merging only empty inputs
yields the empty sequence. -/
theorem merge_desc_spec [LinearOrder α] [Inhabited α] (its : List (List α))
    (hs : ∀ l ∈ its, List.Pairwise (fun x y : α => y ≤ x) l) :
    List.Perm (merge its) its.flatten ∧
    List.Pairwise (fun x y : α => y ≤ x) (merge its) ∧
    merge ([[6, 5, 3, 2, 2, 1], [9, 7, 4, 3, 1], [10]] : List (List ℤ)) =
      [10, 9, 7, 6, 5, 4, 3, 3, 2, 2, 1, 1] ∧
    merge ([[], [], []] : List (List ℤ)) = [] :=
  ⟨merge_perm its, merge_sorted hs, by decide, by decide⟩

theorem merge_desc_spec_witness :
    List.Perm (merge ([[5, 3], [4]] : List (List ℤ))) [5, 3, 4] ∧
    List.Pairwise (fun x y : ℤ => y ≤ x) (merge ([[5, 3], [4]] : List (List ℤ))) := by
  have h := merge_desc_spec ([[5, 3], [4]] : List (List ℤ)) (by decide)
  exact ⟨by simpa using h.1, h.2.1⟩

/-- C3: `heappop` on a non-empty valid max-heap removes and returns the
element at index 0, which is the maximum; afterwards the list is one
element shorter, contains exactly the remaining elements, still satisfies
the invariant, and a singleton heap is left empty. -/
theorem heappop_spec [LinearOrder α] [Inhabited α] (l : List α)
    (hne : l ≠ []) (hh : IsHeap ltb l) :
    heappop ltb l = some (l.getI 0, heappopRest ltb l) ∧
    (∀ y ∈ l, y ≤ l.getI 0) ∧
    (heappopRest ltb l).length = l.length - 1 ∧
    List.Perm (l.getI 0 :: heappopRest ltb l) l ∧
    IsHeap ltb (heappopRest ltb l) ∧
    (l.length = 1 → heappopRest ltb l = []) := by
  refine ⟨heappop_eq hne, ?_, heappopRest_length hne, heappopRest_perm hne,
    heappopRest_isHeap ltb_isSWO hne hh, ?_⟩
  · intro y hy
    exact ltb_false.1 (isHeap_root_max_mem ltb_isSWO hh y hy)
  · intro h1
    apply List.eq_nil_of_length_eq_zero
    rw [heappopRest_length hne]
    omega

theorem heappop_spec_witness :
    heappop ltb ([5, 2, 4] : List ℤ) = some (5, heappopRest ltb [5, 2, 4]) ∧
    IsHeap ltb (heappopRest ltb ([5, 2, 4] : List ℤ)) := by
  have h := heappop_spec ([5, 2, 4] : List ℤ) (by decide) (by decide)
  exact ⟨h.1, h.2.2.2.2.1⟩

/-- C4: after `heapify`, repeatedly applying `heappop` until the list is
empty yields the elements in non-increasing order; the sequence of popped
values is a permutation of the original list, i.e. its descending sort. -/
theorem heapsort_spec [LinearOrder α] [Inhabited α] (l : List α) :
    List.Pairwise (fun x y : α => y ≤ x) (drain ltb (heapify ltb l)) ∧
    List.Perm (drain ltb (heapify ltb l)) l := by
  have h := drainGo_perm_sorted ltb_isSWO (heapify ltb l).length (heapify ltb l)
    rfl (heapify_isHeap ltb_isSWO l)
  constructor
  · exact h.2.imp (fun hab => ltb_false.1 hab)
  · exact h.1.trans (heapify_perm ltb l)

/-- C5 (counterexample): with equal keys, the record of the earlier-listed
input (order index 0) compares as SMALLER, not larger, and the head of the
later-listed input is emitted first: merging `["aa"]` and `["bb"]` by
string length yields `["bb","aa"]`, not `["aa","bb"]`.  The same holds for
the no-key record comparison. -/
theorem merge_tiebreak_counterexample :
    recLtK (KRec.mk 2 0 "aa" ([] : List String)) (KRec.mk 2 1 "bb" []) = true ∧
    recLt (MRec.mk (5 : ℤ) 0 []) (MRec.mk 5 1 []) = true ∧
    mergeK (fun s => s.length) [["aa"], ["bb"]] = ["bb", "aa"] ∧
    mergeK (fun s => s.length) [["aa"], ["bb"]] ≠ ["aa", "bb"] := by
  refine ⟨by decide, by decide, by decide, by decide⟩

/-- C5 (amended): in `merge`, ties in the value (or key value) are broken
by the source order index with the LATER-listed input comparing as larger
in the max-heap, so its head is emitted before the tied head of any
earlier-listed input; concretely, merging `["aa"]` and `["bb"]` by length
emits `"bb"` (source 1) before `"aa"` (source 0). -/
theorem merge_tiebreak_amended [LinearOrder α] [LinearOrder κ]
    (v : α) (k : κ) (o1 o2 : Nat) (r1 r2 : List α) (x y : α)
    (s1 s2 : List α) (h : o1 < o2) :
    recLt (MRec.mk v o1 r1) (MRec.mk v o2 r2) = true ∧
    recLtK (KRec.mk k o1 x s1) (KRec.mk k o2 y s2) = true ∧
    mergeK (fun s => s.length) [["aa"], ["bb"]] = ["bb", "aa"] := by
  refine ⟨?_, ?_, by decide⟩
  · unfold recLt
    simp [lt_irrefl, h]
  · unfold recLtK
    simp [lt_irrefl, h]

theorem merge_tiebreak_amended_witness :
    recLt (MRec.mk (5 : ℤ) 0 []) (MRec.mk 5 1 []) = true ∧
    recLtK (KRec.mk (2 : ℤ) 0 (7 : ℤ) []) (KRec.mk 2 1 8 []) = true ∧
    mergeK (fun s => s.length) [["aa"], ["bb"]] = ["bb", "aa"] :=
  merge_tiebreak_amended (5 : ℤ) (2 : ℤ) 0 1 [] [] 7 8 [] [] (by decide)

/-- C6: merging `["horse","dog"]` and `["kangaroo","fish","cat"]` with the
string-length key yields exactly
`["kangaroo","horse","fish","cat","dog"]`. -/
theorem mergeK_length_example :
    mergeK (fun s => s.length) [["horse", "dog"], ["kangaroo", "fish", "cat"]] =
      ["kangaroo", "horse", "fish", "cat", "dog"] := by decide

/-- C7: on a valid heap, `heappushpop` returns the same value and leaves
the same heap contents (as a multiset, still a valid heap) as `heappush`
followed by `heappop`; in particular `heappushpop([], 4)` returns 4 and
leaves the list empty. -/
theorem heappushpop_spec [LinearOrder α] [Inhabited α] (l : List α) (x : α)
    (hh : IsHeap ltb l) :
    heappop ltb (heappush ltb l x) =
      some ((heappush ltb l x).getI 0, heappopRest ltb (heappush ltb l x)) ∧
    (heappushpop ltb l x).1 = (heappush ltb l x).getI 0 ∧
    List.Perm (heappushpop ltb l x).2 (heappopRest ltb (heappush ltb l x)) ∧
    IsHeap ltb (heappushpop ltb l x).2 ∧
    heappushpop ltb ([] : List ℤ) 4 = (4, []) := by
  have hpne : heappush ltb l x ≠ [] := by
    intro h0
    have h1 := heappush_length ltb l x
    rw [h0] at h1
    simp at h1
  have hppos : 0 < (heappush ltb l x).length := by
    rw [heappush_length]; omega
  have hLheap := heappush_isHeap ltb_isSWO hh x
  have hLperm := heappush_perm ltb l x
  have hm_mem : (heappush ltb l x).getI 0 ∈ x :: l :=
    hLperm.mem_iff.1 (getI_zero_mem hppos)
  have hm_max : ∀ y ∈ x :: l, y ≤ (heappush ltb l x).getI 0 := by
    intro y hy
    exact ltb_false.1 (isHeap_root_max_mem ltb_isSWO hLheap y (hLperm.mem_iff.2 hy))
  have hpr : List.Perm ((heappush ltb l x).getI 0 ::
      heappopRest ltb (heappush ltb l x)) (x :: l) :=
    (heappopRest_perm hpne).trans hLperm
  refine ⟨heappop_eq hpne, ?_⟩
  by_cases hcond : l.isEmpty = false ∧ ltb x (l.getI 0) = true
  · -- the old root is larger than the pushed item
    have hlne : l ≠ [] := by
      intro h0
      rw [h0] at hcond
      simp at hcond
    have hlpos : 0 < l.length := List.length_pos.2 hlne
    have hx : x < l.getI 0 := ltb_true.1 hcond.2
    have hr0max : ∀ y ∈ l, y ≤ l.getI 0 := by
      intro y hy
      exact ltb_false.1 (isHeap_root_max_mem ltb_isSWO hh y hy)
    have hb : l.getI 0 = (heappush ltb l x).getI 0 := by
      refine le_antisymm (hm_max _ (List.mem_cons_of_mem _ (getI_zero_mem hlpos))) ?_
      rcases List.mem_cons.1 hm_mem with he | he
      · rw [he]; exact le_of_lt hx
      · exact hr0max _ he
    rw [heappushpop, if_pos hcond]
    dsimp only
    have hperm1 : List.Perm (siftdown ltb (l.set 0 x) 0) (l.set 0 x) :=
      siftdown_perm (by simpa using hlpos)
    have hperm2 : List.Perm (l.getI 0 :: siftdown ltb (l.set 0 x) 0) (x :: l) :=
      (hperm1.cons _).trans (cons_getI_set_zero_perm hlne x)
    refine ⟨hb, ?_, ?_, by decide⟩
    · rw [hb] at hperm2
      exact List.Perm.cons_inv (hperm2.trans hpr.symm)
    · exact siftdown_heapFrom ltb_isSWO (by simpa using hlpos)
        (heapFrom_one_set_zero (HeapFrom.mono (by omega) hh) x)
  · -- the pushed item is returned unchanged
    have hb : x = (heappush ltb l x).getI 0 := by
      refine le_antisymm (hm_max _ (List.mem_cons_self _ _)) ?_
      rcases List.mem_cons.1 hm_mem with he | he
      · exact le_of_eq he
      · have hlne : l ≠ [] := List.ne_nil_of_mem he
        have hlpos : 0 < l.length := List.length_pos.2 hlne
        have hxr : ltb x (l.getI 0) ≠ true := by
          intro hxx
          exact hcond ⟨by simpa [List.isEmpty_iff] using hlne, hxx⟩
        have hxr2 : l.getI 0 ≤ x := by
          cases hxx : ltb x (l.getI 0) with
          | true => exact absurd hxx hxr
          | false => exact ltb_false.1 hxx
        exact le_trans (ltb_false.1 (isHeap_root_max_mem ltb_isSWO hh _ he)) hxr2
    rw [heappushpop, if_neg hcond]
    dsimp only
    refine ⟨hb, ?_, hh, by decide⟩
    rw [← hb] at hpr
    exact (List.Perm.cons_inv hpr).symm

theorem heappushpop_spec_witness :
    (heappushpop ltb ([5, 2] : List ℤ) 3).1 = (heappush ltb [5, 2] 3).getI 0 ∧
    List.Perm (heappushpop ltb ([5, 2] : List ℤ) 3).2
      (heappopRest ltb (heappush ltb [5, 2] 3)) := by
  have h := heappushpop_spec ([5, 2] : List ℤ) 3 (by decide)
  exact ⟨h.2.1, h.2.2.1⟩

/-- C8: `heappop` and `heapreplace` fail (with the propagated indexing
failure, modelled as `none`) exactly when the sequence is empty; on any
non-empty list they succeed. -/
theorem empty_access_spec [LinearOrder α] [Inhabited α] (l : List α) (x : α) :
    (heappop ltb l = none ↔ l = []) ∧
    (heapreplace ltb l x = none ↔ l = []) := by
  constructor
  · constructor
    · intro h
      by_contra hne
      rw [heappop_eq hne] at h
      exact Option.some_ne_none _ h
    · intro h
      subst h
      rfl
  · constructor
    · intro h
      cases l with
      | nil => rfl
      | cons a t => rw [heapreplace] at h; exact absurd h (Option.some_ne_none _)
    · intro h
      subst h
      rfl

/-- C9: the sift routines are total and in-bounds: for every list and every
start position in range, the bounds-checked `_siftup` and `_siftdown`
(which fail on any out-of-range element access) succeed and agree with the
plain routines, and the bounds-checked `heappush` succeeds on every list,
whether or not it satisfies the heap invariant. -/
theorem sift_inbounds_spec (lt : α → α → Bool) [Inhabited α]
    (l : List α) (pos : Nat) (h : pos < l.length) :
    siftdownChk lt l pos = some (siftdown lt l pos) ∧
    siftupChk lt l pos = some (siftup lt l pos) ∧
    ∀ (m : List α) (y : α), heappushChk lt m y = some (heappush lt m y) :=
  ⟨siftdownChk_eq lt h, siftupChk_eq lt h, fun m y => heappushChk_eq lt m y⟩

theorem sift_inbounds_spec_witness :
    siftdownChk ltb ([3, 1] : List ℤ) 1 = some (siftdown ltb [3, 1] 1) ∧
    siftupChk ltb ([3, 1] : List ℤ) 1 = some (siftup ltb [3, 1] 1) ∧
    heappushChk ltb ([2, 9] : List ℤ) 7 = some (heappush ltb [2, 9] 7) :=
  ⟨(sift_inbounds_spec ltb [3, 1] 1 (by decide)).1,
   (sift_inbounds_spec ltb [3, 1] 1 (by decide)).2.1,
   (sift_inbounds_spec ltb [3, 1] 1 (by decide)).2.2 [2, 9] 7⟩

/-- C10: for every finite collection of inputs, sorted or not, `merge`
(with or without a key function) terminates (it is a total function) and
emits a sequence whose multiset of elements is exactly the union of the
input elements, consuming each element once. -/
theorem merge_multiset_spec [LinearOrder α] [Inhabited α] [LinearOrder κ]
    [Inhabited κ] (its : List (List α)) (key : α → κ) :
    List.Perm (merge its) its.flatten ∧
    List.Perm (mergeK key its) its.flatten :=
  ⟨merge_perm its, mergeK_perm key its⟩

end Maxheap
